import Mathlib

/-!
Verification of the MCDM engine of `SESP_Model/src/mcdm/mcdm_utils.py`.

The module provides three algorithm families: AHP (eigenvector weighting with
consistency check), TOPSIS (vector-normalized ranking) and DEA (LP-based
efficiency).  Pure matrix arithmetic is embedded directly; the two external
numerical routines the source calls — `numpy.linalg.eig`,
`scipy.optimize.linprog`, and the `np.argsort` call that produces the TOPSIS
ranking — are modelled as oracle inputs (their results are parameters of the
embedded functions), since their internals are not part of this repository;
the argsort oracle is constrained only by numpy's documented sort contract,
which does not promise stability for the default kind.  Machine floats are modelled by exact rationals (ℚ) where the
source only performs field arithmetic and comparisons, and by ℝ where the
source takes square roots (TOPSIS).
-/

namespace SESP

/-! ### AHP — Analytic Hierarchy Process -/

/-- Embeds the module-level dict `RANDOM_INDEX` (mcdm_utils.py lines 27-30):
Saaty random-index values keyed by matrix size 1..10. -/
def RANDOM_INDEX : ℕ → Option ℚ
  | 1 => some 0
  | 2 => some 0
  | 3 => some (58/100)
  | 4 => some (90/100)
  | 5 => some (112/100)
  | 6 => some (124/100)
  | 7 => some (132/100)
  | 8 => some (141/100)
  | 9 => some (145/100)
  | 10 => some (149/100)
  | _ => none

/-- Embeds `RANDOM_INDEX.get(n, 1.49)` (line 129): dictionary lookup with
default 1.49 for sizes outside the table. -/
def riLookup (n : ℕ) : ℚ := (RANDOM_INDEX n).getD (149/100)

/-- Embeds the single update step of the loop body of
`create_comparison_matrix` (lines 55-61): `matrix[i, j] = value;
matrix[j, i] = 1 / value` on a functional square matrix. -/
def placePair {n : ℕ} (m : Fin n → Fin n → ℚ) (i j : Fin n) (value : ℚ) :
    Fin n → Fin n → ℚ :=
  fun a b => if a = i ∧ b = j then value
    else if a = j ∧ b = i then 1 / value else m a b

/-- Embeds `create_comparison_matrix` (lines 33-63).  The comparison dict is
modelled as an association list iterated in insertion order (Python dicts
preserve insertion order and have unique keys).  Starting from the all-ones
matrix, each pair `(i, j)` with `i < j` or `i > j` places `value` at `(i, j)`
and `1/value` at `(j, i)`; pairs with `i = j` are skipped by the code. -/
def create_comparison_matrix {n : ℕ} (comparisons : List ((Fin n × Fin n) × ℚ)) :
    Fin n → Fin n → ℚ :=
  comparisons.foldl
    (fun m e =>
      if e.1.1 < e.1.2 then placePair m e.1.1 e.1.2 e.2
      else if e.1.2 < e.1.1 then placePair m e.1.1 e.1.2 e.2
      else m)
    (fun _ _ => 1)

/-- Result record of `ahp_weights` (its returned triple). -/
structure AHPWeights (n : ℕ) where
  weights : Fin n → ℚ
  lambda_max : ℚ
  ci : ℚ

/-- Embeds `ahp_weights` (lines 66-106).  Lines 87-94 call the external
routine `numpy.linalg.eig` and select the eigenpair of largest real part;
that principal eigenpair is modelled as the oracle inputs `v` (the real part
of the principal eigenvector) and `lam` (the real part of the principal
eigenvalue).  The embedded part is lines 97-106: normalize the eigenvector to
sum 1, negate if any normalized entry is negative, and compute
CI = (lambda_max - n)/(n - 1) for n > 1, else 0. -/
def ahp_weights {n : ℕ} (v : Fin n → ℚ) (lam : ℚ) : AHPWeights n :=
  let w : Fin n → ℚ := fun i => v i / ∑ j, v j
  let w2 : Fin n → ℚ := if ∃ i, w i < 0 then fun i => -(w i) else w
  let ci : ℚ := if 1 < n then (lam - n) / (n - 1) else 0
  ⟨w2, lam, ci⟩

/-- Result record of `ahp_consistency_ratio` (its returned dict).  The
`message` entry, a purely presentational formatted string, is omitted. -/
structure AHPReport (n : ℕ) where
  weights : Fin n → ℚ
  lambda_max : ℚ
  ci : ℚ
  ri : ℚ
  cr : ℚ
  is_consistent : Bool

/-- Embeds `ahp_consistency_ratio` (lines 109-147), with the principal
eigenpair of the comparison matrix passed as the oracle inputs `v`, `lam`
(see `ahp_weights`): `ri = RANDOM_INDEX.get(n, 1.49)`,
`cr = ci / ri if ri > 0 else 0`, `is_consistent = cr < 0.10`. -/
def ahpConsistency {n : ℕ} (v : Fin n → ℚ) (lam : ℚ) : AHPReport n :=
  let a := ahp_weights v lam
  let ri := riLookup n
  let cr := if 0 < ri then a.ci / ri else 0
  ⟨a.weights, a.lambda_max, a.ci, ri, cr, decide (cr < 1/10)⟩

/-! ### Claims C1 and C2 -/

/-- C1: for every valid positive reciprocal comparison matrix, `ahp_weights`
returns a weight vector summing to 1 with all entries nonnegative, together
with lambda_max and CI = (lambda_max - n)/(n - 1) for n > 1, else 0.  The
principal eigenpair delivered by `numpy.linalg.eig` is the oracle input; by
the Perron-Frobenius theorem, for a positive matrix the real part of the
principal eigenvector has all entries of one strict sign, which is the
hypothesis `hsign`.  The sum is exactly 1, hence within 1e-9 of 1. -/
theorem ahp_weights_normalized (n : ℕ) (v : Fin (n+1) → ℚ) (lam : ℚ)
    (hsign : (∀ i, 0 < v i) ∨ (∀ i, v i < 0)) :
    (∑ i, (ahp_weights v lam).weights i) = 1
    ∧ (∀ i, 0 ≤ (ahp_weights v lam).weights i)
    ∧ (ahp_weights v lam).lambda_max = lam
    ∧ (ahp_weights v lam).ci =
        (if 1 < n + 1 then (lam - (n+1 : ℕ)) / ((n+1 : ℕ) - 1) else 0) := by
  have hpos : ∀ i, 0 < v i / ∑ j, v j := by
    rcases hsign with hp | hn
    · have hs : 0 < ∑ j, v j :=
        Finset.sum_pos (fun i _ => hp i) ⟨0, Finset.mem_univ 0⟩
      exact fun i => div_pos (hp i) hs
    · have hs : (∑ j, v j) < 0 :=
        Finset.sum_neg (fun i _ => hn i) ⟨0, Finset.mem_univ 0⟩
      exact fun i => div_pos_of_neg_of_neg (hn i) hs
  have hS : (∑ j, v j) ≠ 0 := by
    intro h0
    have := hpos 0
    rw [h0, div_zero] at this
    exact lt_irrefl 0 this
  have hno : ¬ ∃ i, v i / (∑ j, v j) < 0 := by
    rintro ⟨i, hi⟩
    exact absurd (hpos i) (not_lt.mpr hi.le)
  refine ⟨?_, ?_, rfl, rfl⟩
  · simp only [ahp_weights, if_neg hno]
    rw [← Finset.sum_div, div_self hS]
  · intro i
    simp only [ahp_weights, if_neg hno]
    exact (hpos i).le

/-- Concrete eigenvector input used to witness C1. -/
def c1v : Fin 2 → ℚ := ![1, 2]

/-- Witness for C1 at the eigenpair (v, lam) = ((1, 2), 3). -/
theorem ahp_weights_normalized_witness :
    (0 < c1v 0 ∧ 0 < c1v 1)
    ∧ (∑ i, (ahp_weights c1v 3).weights i) = 1
    ∧ 0 ≤ (ahp_weights c1v 3).weights 0
    ∧ 0 ≤ (ahp_weights c1v 3).weights 1
    ∧ (ahp_weights c1v 3).lambda_max = 3 := by
  have h : (∀ i, 0 < c1v i) ∨ (∀ i, c1v i < 0) := Or.inl (by decide)
  exact ⟨by decide, (ahp_weights_normalized 1 c1v 3 h).1,
    (ahp_weights_normalized 1 c1v 3 h).2.1 0,
    (ahp_weights_normalized 1 c1v 3 h).2.1 1,
    (ahp_weights_normalized 1 c1v 3 h).2.2.1⟩

/-- C2: `ahp_consistency_ratio` looks up RI from the standard table
(1 -> 0, 2 -> 0, 3 -> 0.58, 4 -> 0.90, 5 -> 1.12, 6 -> 1.24, 7 -> 1.32,
8 -> 1.41, 9 -> 1.45, 10 -> 1.49, sizes beyond 10 falling back to 1.49),
sets CR = CI/RI when RI > 0 and CR = 0 when RI = 0, and reports
is_consistent exactly when CR < 0.10. -/
theorem ahpConsistency_spec (n : ℕ) (v : Fin n → ℚ) (lam : ℚ) :
    riLookup 1 = 0 ∧ riLookup 2 = 0 ∧ riLookup 3 = 58/100 ∧ riLookup 4 = 90/100
    ∧ riLookup 5 = 112/100 ∧ riLookup 6 = 124/100 ∧ riLookup 7 = 132/100
    ∧ riLookup 8 = 141/100 ∧ riLookup 9 = 145/100 ∧ riLookup 10 = 149/100
    ∧ (10 < n → riLookup n = 149/100)
    ∧ (ahpConsistency v lam).ri = riLookup n
    ∧ (0 < riLookup n →
        (ahpConsistency v lam).cr = (ahpConsistency v lam).ci / riLookup n)
    ∧ (riLookup n = 0 → (ahpConsistency v lam).cr = 0)
    ∧ ((ahpConsistency v lam).is_consistent = true ↔
        (ahpConsistency v lam).cr < 1/10) := by
  refine ⟨rfl, rfl, rfl, rfl, rfl, rfl, rfl, rfl, rfl, rfl, ?_, rfl, ?_, ?_, ?_⟩
  · intro h
    obtain ⟨m, rfl⟩ : ∃ m, n = m + 11 := ⟨n - 11, by omega⟩
    rfl
  · intro h
    simp only [ahpConsistency, if_pos h]
  · intro h
    simp only [ahpConsistency, h, lt_irrefl, if_false]
  · simp only [ahpConsistency, decide_eq_true_eq]

/-- Concrete eigenvector input used to witness C2. -/
def c2v : Fin 12 → ℚ := fun _ => 1

/-- Witness for C2 at matrix size n = 12 (beyond the RI table). -/
theorem ahpConsistency_spec_witness :
    (10 < 12 ∧ 0 < riLookup 12)
    ∧ riLookup 12 = 149/100
    ∧ (ahpConsistency c2v 0).ri = riLookup 12
    ∧ (ahpConsistency c2v 0).cr = (ahpConsistency c2v 0).ci / riLookup 12
    ∧ ((ahpConsistency c2v 0).is_consistent = true ↔
        (ahpConsistency c2v 0).cr < 1/10) := by
  have e : riLookup 12 = 149/100 := rfl
  have hpos : 0 < riLookup 12 := by rw [e]; norm_num
  exact ⟨⟨by norm_num, hpos⟩,
    (ahpConsistency_spec 12 c2v 0).2.2.2.2.2.2.2.2.2.2.1 (by norm_num),
    (ahpConsistency_spec 12 c2v 0).2.2.2.2.2.2.2.2.2.2.2.1,
    (ahpConsistency_spec 12 c2v 0).2.2.2.2.2.2.2.2.2.2.2.2.1 hpos,
    (ahpConsistency_spec 12 c2v 0).2.2.2.2.2.2.2.2.2.2.2.2.2.2⟩

/-! ### Claim C6 — comparison-matrix construction -/

/-- The loop body of `create_comparison_matrix` as a single step. -/
def ccmStep {n : ℕ} (m : Fin n → Fin n → ℚ) (e : (Fin n × Fin n) × ℚ) :
    Fin n → Fin n → ℚ :=
  if e.1.1 < e.1.2 then placePair m e.1.1 e.1.2 e.2
  else if e.1.2 < e.1.1 then placePair m e.1.1 e.1.2 e.2
  else m

theorem create_comparison_matrix_eq_foldl {n : ℕ}
    (comparisons : List ((Fin n × Fin n) × ℚ)) :
    create_comparison_matrix comparisons = comparisons.foldl ccmStep (fun _ _ => 1) := rfl

theorem placePair_apply {n : ℕ} (m : Fin n → Fin n → ℚ) (i j a b : Fin n) (v : ℚ) :
    placePair m i j v a b =
      if a = i ∧ b = j then v else if a = j ∧ b = i then 1 / v else m a b := rfl

theorem ccmStep_diag {n : ℕ} (m : Fin n → Fin n → ℚ) (e : (Fin n × Fin n) × ℚ)
    (i : Fin n) (h : m i i = 1) : ccmStep m e i i = 1 := by
  unfold ccmStep
  split
  · next hlt =>
    rw [placePair_apply, if_neg, if_neg]
    · exact h
    · rintro ⟨h1, h2⟩; rw [← h1, ← h2] at hlt; exact lt_irrefl i hlt
    · rintro ⟨h1, h2⟩; rw [← h1, ← h2] at hlt; exact lt_irrefl i hlt
  · split
    · next hlt =>
      rw [placePair_apply, if_neg, if_neg]
      · exact h
      · rintro ⟨h1, h2⟩; rw [← h1, ← h2] at hlt; exact lt_irrefl i hlt
      · rintro ⟨h1, h2⟩; rw [← h1, ← h2] at hlt; exact lt_irrefl i hlt
    · exact h

theorem foldl_ccmStep_diag {n : ℕ} (l : List ((Fin n × Fin n) × ℚ))
    (m : Fin n → Fin n → ℚ) (i : Fin n) (h : m i i = 1) :
    l.foldl ccmStep m i i = 1 := by
  induction l generalizing m with
  | nil => exact h
  | cons x t ih => exact ih (ccmStep m x) (ccmStep_diag m x i h)

theorem ccmStep_pos {n : ℕ} (m : Fin n → Fin n → ℚ) (e : (Fin n × Fin n) × ℚ)
    (hv : 0 < e.2) (h : ∀ a b, 0 < m a b) : ∀ a b, 0 < ccmStep m e a b := by
  intro a b
  unfold ccmStep
  split
  · rw [placePair_apply]
    split_ifs with h1 h2
    · exact hv
    · exact one_div_pos.mpr hv
    · exact h a b
  · split
    · rw [placePair_apply]
      split_ifs with h1 h2
      · exact hv
      · exact one_div_pos.mpr hv
      · exact h a b
    · exact h a b

theorem foldl_ccmStep_pos {n : ℕ} (l : List ((Fin n × Fin n) × ℚ))
    (m : Fin n → Fin n → ℚ) (hv : ∀ e ∈ l, 0 < e.2) (h : ∀ a b, 0 < m a b) :
    ∀ a b, 0 < l.foldl ccmStep m a b := by
  induction l generalizing m with
  | nil => exact h
  | cons x t ih =>
    exact ih (ccmStep m x) (fun e he => hv e (List.mem_cons_of_mem x he))
      (ccmStep_pos m x (hv x (List.mem_cons_self _ _)) h)

theorem ccmStep_frame {n : ℕ} (m : Fin n → Fin n → ℚ) (e : (Fin n × Fin n) × ℚ)
    (a b : Fin n) (h1 : ¬(a = e.1.1 ∧ b = e.1.2)) (h2 : ¬(a = e.1.2 ∧ b = e.1.1)) :
    ccmStep m e a b = m a b := by
  unfold ccmStep
  split
  · rw [placePair_apply, if_neg h1, if_neg h2]
  · split
    · rw [placePair_apply, if_neg h1, if_neg h2]
    · rfl

theorem foldl_ccmStep_frame {n : ℕ} (l : List ((Fin n × Fin n) × ℚ))
    (m : Fin n → Fin n → ℚ) (a b : Fin n)
    (h : ∀ e ∈ l, ¬(a = e.1.1 ∧ b = e.1.2) ∧ ¬(a = e.1.2 ∧ b = e.1.1)) :
    l.foldl ccmStep m a b = m a b := by
  induction l generalizing m with
  | nil => rfl
  | cons x t ih =>
    rw [List.foldl_cons, ih (ccmStep m x)
      (fun e he => h e (List.mem_cons_of_mem x he)),
      ccmStep_frame m x a b (h x (List.mem_cons_self _ _)).1
        (h x (List.mem_cons_self _ _)).2]

theorem foldl_ccmStep_place {n : ℕ} (l : List ((Fin n × Fin n) × ℚ))
    (m : Fin n → Fin n → ℚ)
    (hne : ∀ e ∈ l, e.1.1 ≠ e.1.2)
    (hdist : l.Pairwise (fun e f => e.1 ≠ f.1 ∧ e.1 ≠ (f.1.2, f.1.1))) :
    ∀ e ∈ l, l.foldl ccmStep m e.1.1 e.1.2 = e.2
      ∧ l.foldl ccmStep m e.1.2 e.1.1 = 1 / e.2 := by
  induction l generalizing m with
  | nil => intro e he; cases he
  | cons x t ih =>
    intro e he
    rcases List.mem_cons.mp he with rfl | het
    · have hxij : e.1.1 ≠ e.1.2 := hne e (List.mem_cons_self _ _)
      have hpx := (List.pairwise_cons.mp hdist).1
      have hstep1 : ccmStep m e e.1.1 e.1.2 = e.2 := by
        unfold ccmStep
        rcases lt_or_gt_of_ne hxij with hlt | hgt
        · rw [if_pos hlt, placePair_apply, if_pos ⟨rfl, rfl⟩]
        · rw [if_neg (not_lt_of_gt hgt), if_pos hgt, placePair_apply,
            if_pos ⟨rfl, rfl⟩]
      have hstep2 : ccmStep m e e.1.2 e.1.1 = 1 / e.2 := by
        unfold ccmStep
        rcases lt_or_gt_of_ne hxij with hlt | hgt
        · rw [if_pos hlt, placePair_apply, if_neg, if_pos ⟨rfl, rfl⟩]
          rintro ⟨h1, _⟩; exact hxij h1.symm
        · rw [if_neg (not_lt_of_gt hgt), if_pos hgt, placePair_apply, if_neg,
            if_pos ⟨rfl, rfl⟩]
          rintro ⟨h1, _⟩; exact hxij h1.symm
      constructor
      · rw [List.foldl_cons, foldl_ccmStep_frame, hstep1]
        intro f hf
        constructor
        · rintro ⟨h1, h2⟩; exact (hpx f hf).1 (Prod.ext_iff.mpr ⟨h1, h2⟩)
        · rintro ⟨h1, h2⟩; exact (hpx f hf).2 (Prod.ext_iff.mpr ⟨h1, h2⟩)
      · rw [List.foldl_cons, foldl_ccmStep_frame, hstep2]
        intro f hf
        constructor
        · rintro ⟨h1, h2⟩; exact (hpx f hf).2 (Prod.ext_iff.mpr ⟨h2, h1⟩)
        · rintro ⟨h1, h2⟩; exact (hpx f hf).1 (Prod.ext_iff.mpr ⟨h2, h1⟩)
    · rw [List.foldl_cons]
      exact ih (ccmStep m x) (fun f hf => hne f (List.mem_cons_of_mem x hf))
        (List.pairwise_cons.mp hdist).2 e het

/-- The judgment mapping with both orientations of one unordered pair, used
to refute C6 as stated: the later entry (1,0) -> 5 overwrites the cell (0,1)
that the earlier entry (0,1) -> 3 had set. -/
def c6badList : List ((Fin 2 × Fin 2) × ℚ) := [((0, 1), 3), ((1, 0), 5)]

/-- Counterexample for C6.  The mapping [((0,1),3), ((1,0),5)] has strictly
positive values on off-diagonal pairs, and contains the pair ((0,1),3), yet
`create_comparison_matrix` leaves 1/5 — not 3 — at entry (0,1): the claim
that every supplied pair is placed at its entry is false as stated. -/
theorem create_comparison_matrix_counterexample :
    (0 : Fin 2) ≠ 1 ∧ (1 : Fin 2) ≠ 0 ∧ (0:ℚ) < 3 ∧ (0:ℚ) < 5
    ∧ ((0, 1), (3:ℚ)) ∈ c6badList
    ∧ create_comparison_matrix c6badList 0 1 = 1/5
    ∧ ¬ create_comparison_matrix c6badList 0 1 = 3 :=
  ⟨by decide, by decide, by decide, by decide, by decide, by rfl,
    by norm_num [create_comparison_matrix, c6badList, placePair]⟩

/-- C6 (amended): for every judgment mapping with strictly positive values
over pairs (i,j) with i ≠ j, in which no unordered pair occurs twice (in
particular a pair and its reverse are not both supplied),
`create_comparison_matrix` returns a matrix with all-ones diagonal, every
supplied pair (i,j) placed at (i,j) with reciprocal 1/value at (j,i), and all
entries strictly positive. -/
theorem create_comparison_matrix_spec (n : ℕ)
    (comparisons : List ((Fin n × Fin n) × ℚ))
    (hne : ∀ e ∈ comparisons, e.1.1 ≠ e.1.2)
    (hpos : ∀ e ∈ comparisons, 0 < e.2)
    (hdist : comparisons.Pairwise (fun e f => e.1 ≠ f.1 ∧ e.1 ≠ (f.1.2, f.1.1))) :
    (∀ i, create_comparison_matrix comparisons i i = 1)
    ∧ (∀ e ∈ comparisons,
        create_comparison_matrix comparisons e.1.1 e.1.2 = e.2
        ∧ create_comparison_matrix comparisons e.1.2 e.1.1 = 1 / e.2)
    ∧ (∀ i j, 0 < create_comparison_matrix comparisons i j) := by
  rw [create_comparison_matrix_eq_foldl]
  exact ⟨fun i => foldl_ccmStep_diag _ _ i rfl,
    foldl_ccmStep_place _ _ hne hdist,
    fun i j => foldl_ccmStep_pos _ _ hpos (fun a b => one_pos) i j⟩

/-- A well-formed single-judgment mapping used to witness the amended C6. -/
def c6goodList : List ((Fin 2 × Fin 2) × ℚ) := [((0, 1), 3)]

/-- Witness for the amended C6 at the mapping [((0,1),3)] over n = 2. -/
theorem create_comparison_matrix_spec_witness :
    ((0 : Fin 2) ≠ 1 ∧ (0:ℚ) < 3)
    ∧ create_comparison_matrix c6goodList 0 0 = 1
    ∧ create_comparison_matrix c6goodList 1 1 = 1
    ∧ create_comparison_matrix c6goodList 0 1 = 3
    ∧ create_comparison_matrix c6goodList 1 0 = 1/3
    ∧ 0 < create_comparison_matrix c6goodList 1 0 := by
  have hne : ∀ e ∈ c6goodList, e.1.1 ≠ e.1.2 := by decide
  have hpos : ∀ e ∈ c6goodList, 0 < e.2 := by decide
  have hdist : c6goodList.Pairwise
      (fun e f => e.1 ≠ f.1 ∧ e.1 ≠ (f.1.2, f.1.1)) := by decide
  have hm : (((0, 1), (3:ℚ))) ∈ c6goodList := by decide
  exact ⟨⟨by decide, by decide⟩,
    (create_comparison_matrix_spec 2 c6goodList hne hpos hdist).1 0,
    (create_comparison_matrix_spec 2 c6goodList hne hpos hdist).1 1,
    ((create_comparison_matrix_spec 2 c6goodList hne hpos hdist).2.1 _ hm).1,
    ((create_comparison_matrix_spec 2 c6goodList hne hpos hdist).2.1 _ hm).2,
    (create_comparison_matrix_spec 2 c6goodList hne hpos hdist).2.2 1 0⟩

/-! ### Claim C9 — sensitivity analysis does not mutate its input matrix -/

/-- Read the array stored at reference `r` in a store of allocated numpy
arrays (square rational matrices, indexed by allocation order). -/
def readMat {n : ℕ} (s : List (Fin n → Fin n → ℚ)) (r : ℕ) : Fin n → Fin n → ℚ :=
  s.getD r (fun _ _ => 0)

/-- In-place element write `arr[i, j] = v` on the array at reference `r`. -/
def writeCell {n : ℕ} (s : List (Fin n → Fin n → ℚ)) (r : ℕ) (i j : Fin n)
    (v : ℚ) : List (Fin n → Fin n → ℚ) :=
  s.set r (fun a b => if a = i ∧ b = j then v else readMat s r a b)

/-- Models `comparison_matrix.copy()` (line 179): allocates a fresh array
holding the contents of reference `r` and returns its reference, which is
the next free slot of the store. -/
def allocCopy {n : ℕ} (s : List (Fin n → Fin n → ℚ)) (r : ℕ) :
    ℕ × List (Fin n → Fin n → ℚ) :=
  (s.length, s ++ [readMat s r])

/-- Embeds the array reads and writes of `ahp_sensitivity_analysis`
(lines 150-195) as a store transformer: for each pair in `vary_indices` the
original value is read from the base matrix (line 175), and for each factor
`1 - variation_range`, `1 + variation_range` a fresh copy of the base matrix
is allocated and the two reciprocal cells are written on the copy
(lines 178-182).  The weight/consistency computations (`ahp_consistency_ratio`
calls on base and copies) only read arrays, so they do not appear in the
store transformer. -/
def ahp_sensitivity_store {n : ℕ} (base : ℕ) (vary_indices : List (Fin n × Fin n))
    (variation_range : ℚ) (s : List (Fin n → Fin n → ℚ)) :
    List (Fin n → Fin n → ℚ) :=
  vary_indices.foldl
    (fun s1 p =>
      let original_value := readMat s1 base p.1 p.2
      [1 - variation_range, 1 + variation_range].foldl
        (fun s2 factor =>
          let vc := allocCopy s2 base
          let new_value := original_value * factor
          writeCell (writeCell vc.2 vc.1 p.1 p.2 new_value) vc.1 p.2 p.1
            (1 / new_value))
        s1)
    s

theorem readMat_writeCell_ne {n : ℕ} (s : List (Fin n → Fin n → ℚ)) (r r2 : ℕ)
    (i j : Fin n) (v : ℚ) (h : r ≠ r2) :
    readMat (writeCell s r i j v) r2 = readMat s r2 := by
  unfold readMat writeCell
  rw [List.getD_eq_getElem?_getD, List.getD_eq_getElem?_getD,
    List.getElem?_set_ne h]

theorem readMat_append_one {n : ℕ} (s : List (Fin n → Fin n → ℚ))
    (x : Fin n → Fin n → ℚ) (r : ℕ) (h : r < s.length) :
    readMat (s ++ [x]) r = readMat s r :=
  List.getD_append s [x] _ r h

/-- A store transformer whose every step only grows the store and leaves all
previously allocated references untouched preserves them globally. -/
theorem foldl_store_frame {n : ℕ} {α : Type}
    (step : List (Fin n → Fin n → ℚ) → α → List (Fin n → Fin n → ℚ))
    (hstep : ∀ s x, s.length ≤ (step s x).length
      ∧ ∀ r < s.length, readMat (step s x) r = readMat s r)
    (l : List α) (s : List (Fin n → Fin n → ℚ)) :
    s.length ≤ (l.foldl step s).length
    ∧ ∀ r < s.length, readMat (l.foldl step s) r = readMat s r := by
  induction l generalizing s with
  | nil => exact ⟨le_refl _, fun r _ => rfl⟩
  | cons x t ih =>
    rw [List.foldl_cons]
    refine ⟨le_trans (hstep s x).1 (ih (step s x)).1, fun r hr => ?_⟩
    rw [(ih (step s x)).2 r (lt_of_lt_of_le hr (hstep s x).1),
      (hstep s x).2 r hr]

theorem inner_step_frame {n : ℕ} (base : ℕ) (i j : Fin n) (ov : ℚ)
    (s2 : List (Fin n → Fin n → ℚ)) (factor : ℚ) :
    s2.length ≤ (writeCell (writeCell (allocCopy s2 base).2
        (allocCopy s2 base).1 i j (ov * factor)) (allocCopy s2 base).1 j i
        (1 / (ov * factor))).length
    ∧ ∀ r < s2.length,
      readMat (writeCell (writeCell (allocCopy s2 base).2
        (allocCopy s2 base).1 i j (ov * factor)) (allocCopy s2 base).1 j i
        (1 / (ov * factor))) r = readMat s2 r := by
  constructor
  · unfold writeCell allocCopy
    simp
  · intro r hr
    have hne : (allocCopy s2 base).1 ≠ r := by
      unfold allocCopy
      exact Nat.ne_of_gt hr
    rw [readMat_writeCell_ne _ _ _ _ _ _ hne, readMat_writeCell_ne _ _ _ _ _ _ hne]
    exact readMat_append_one s2 _ r hr

/-- C9: `ahp_sensitivity_analysis` never mutates its input: every
perturbation for every (pair, direction) combination is written to a freshly
allocated copy of the base matrix, so after the call the base matrix holds
exactly the entries it held before. -/
theorem ahp_sensitivity_no_mutation (n : ℕ) (base : ℕ)
    (vary_indices : List (Fin n × Fin n)) (variation_range : ℚ)
    (s : List (Fin n → Fin n → ℚ)) (h : base < s.length) :
    readMat (ahp_sensitivity_store base vary_indices variation_range s) base
      = readMat s base := by
  unfold ahp_sensitivity_store
  refine (foldl_store_frame _ ?_ vary_indices s).2 base h
  intro s1 p
  exact foldl_store_frame _ (fun s2 factor => inner_step_frame base p.1 p.2
    (readMat s1 base p.1 p.2) s2 factor) [1 - variation_range, 1 + variation_range] s1

/-- Concrete base matrix for the C9 witness. -/
def c9m : Fin 2 → Fin 2 → ℚ := fun a b => if a = b then 1 else 3

/-- Witness for C9: one allocated matrix, one varied pair, variation 20%. -/
theorem ahp_sensitivity_no_mutation_witness :
    0 < ([c9m] : List (Fin 2 → Fin 2 → ℚ)).length
    ∧ readMat (ahp_sensitivity_store 0 [((0 : Fin 2), (1 : Fin 2))] (1/5) [c9m]) 0
      = readMat [c9m] 0 :=
  ⟨by decide, ahp_sensitivity_no_mutation 2 0 [(0, 1)] (1/5) [c9m] (by decide)⟩

/-! ### DEA — Data Envelopment Analysis -/

/-- Embeds `numpy.isclose(a, b, rtol, atol)` for scalars:
true exactly when the absolute difference is at most atol + rtol * abs(b).
The source calls it with `atol=1e-6` and numpy default `rtol=1e-5`. -/
def npIsClose (a b atol rtol : ℚ) : Bool := decide (|a - b| ≤ atol + rtol * |b|)

/-- The relevant part of a `scipy.optimize.linprog` result: the success flag,
the first decision variable (phi for output orientation), the lambda block of
the solution vector, and the solver message.  The LP solve itself is external
to the repository and is modelled as this oracle value. -/
structure LinprogResult (nd : ℕ) where
  success : Bool
  x0 : ℚ
  lam : Fin nd → ℚ
  message : String

/-- The dict returned by `dea_efficiency` (output orientation). -/
structure DEAResult (nd ni no : ℕ) where
  efficiency : Option ℚ
  phi : Option ℚ
  lambdas : Option (Fin nd → ℚ)
  slack_inputs : Option (Fin ni → ℚ)
  slack_outputs : Option (Fin no → ℚ)
  is_efficient : Option Bool
  peers : Option (List (Fin nd))
  status : String

/-- Embeds `dea_efficiency` (lines 390-500) in its default output
orientation, with the `linprog` call (line 466) modelled by the oracle
`solve`; the LP constraint-matrix construction (lines 436-463) only feeds
that call.  On success (lines 468-489): phi and lambdas are read off the
solution, efficiency = 1/phi, slacks are the LP residuals, peers are the
DMUs whose lambda exceeds 1e-6, and is_efficient is
`np.isclose(efficiency, 1.0, atol=1e-6)` (numpy default rtol 1e-5).  On
failure (lines 490-500): every numeric field is None and the status string
carries the solver message.  The input orientation (lines 502-565) is the
symmetric formulation with theta in place of phi. -/
def dea_efficiency {nd ni no : ℕ} (inputs : Fin nd → Fin ni → ℚ)
    (outputs : Fin nd → Fin no → ℚ) (dmu_index : Fin nd)
    (solve : LinprogResult nd) : DEAResult nd ni no :=
  let x_k := inputs dmu_index
  let y_k := outputs dmu_index
  if solve.success then
    let phi := solve.x0
    let lambdas := solve.lam
    let efficiency := 1 / phi
    let slack_inputs := fun i => x_k i - ∑ j, inputs j i * lambdas j
    let slack_outputs := fun r => phi * y_k r - ∑ j, outputs j r * lambdas j
    let peers := (List.finRange nd).filter (fun j => decide (1/1000000 < lambdas j))
    ⟨some efficiency, some phi, some lambdas, some slack_inputs,
      some slack_outputs, some (npIsClose efficiency 1 (1/1000000) (1/100000)),
      some peers, "optimal"⟩
  else
    ⟨none, none, none, none, none, none, none, "failed: " ++ solve.message⟩

/-- Embeds `np.argsort(-scores)` (line 607) as a deterministic sort meeting
numpy's documented argsort contract: the result is a permutation of all
indices arranging the scores in weakly descending order.  The default sort
kind is not documented stable, so the tie order fixed here (original index
order) is merely one admissible choice; the theorems below rely only on the
permutation property, which every argsort result satisfies. -/
def argsortDescQ {m : ℕ} (c : Fin m → ℚ) : List (Fin m) :=
  (List.finRange m).mergeSort
    (fun a b => decide (c b < c a ∨ (c a = c b ∧ a.val ≤ b.val)))

/-- The guard of the improvement-target loop of `dea_efficiency_all`
(line 613): `not result['is_efficient'] and result['efficiency'] is not
None`.  Python `not None` is True, so a failed DMU passes the first test but
is excluded by the second. -/
def deaCond {nd ni no : ℕ} (r : DEAResult nd ni no) : Bool :=
  (match r.is_efficient with
    | none => true
    | some b => !b) && r.efficiency.isSome

/-- One entry of `improvement_targets` (output orientation, lines 614-624). -/
structure DEATarget (no : ℕ) where
  current_outputs : Fin no → ℚ
  target_outputs : Fin no → ℚ
  improvement_needed : Fin no → ℚ
  improvement_percent : ℚ

/-- The DMU indices that contribute an `improvement_targets` entry
(the loop of lines 612-635 keyed by `dmu_names[i]` in index order). -/
def deaTargetIndices {nd ni no : ℕ} (results : Fin nd → DEAResult nd ni no) :
    List (Fin nd) :=
  (List.finRange nd).filter (fun i => deaCond (results i))

/-- The dict returned by `dea_efficiency_all`. -/
structure DEAAllResult (nd ni no : ℕ) where
  efficiencies : Fin nd → ℚ
  results : Fin nd → DEAResult nd ni no
  frontier_dmus : List (Fin nd)
  frontier_names : List String
  ranking : List (Fin nd)
  ranked_names : List String
  ranked_efficiencies : List ℚ
  improvement_targets : List (String × DEATarget no)

/-- Embeds `dea_efficiency_all` (lines 568-646, output orientation): runs
`dea_efficiency` per DMU (each LP solve given by the oracle `solve`),
substitutes efficiency 0 where the per-DMU efficiency is None (line 604),
ranks all DMUs by descending efficiency, takes the frontier as the DMUs with
`np.isclose(eff, 1.0, atol=1e-6)` (line 608), and builds improvement targets
`target_outputs = outputs * phi`, `improvement_percent = (phi - 1) * 100`
for the DMUs passing the guard `deaCond` (for those, phi is always present,
so the `getD` default is never taken). -/
def dea_efficiency_all {nd ni no : ℕ} (inputs : Fin nd → Fin ni → ℚ)
    (outputs : Fin nd → Fin no → ℚ) (dmu_names : Fin nd → String)
    (solve : Fin nd → LinprogResult nd) : DEAAllResult nd ni no :=
  let results := fun i => dea_efficiency inputs outputs i (solve i)
  let efficiencies := fun i => (results i).efficiency.getD 0
  let ranking := argsortDescQ efficiencies
  let frontier_dmus := (List.finRange nd).filter
    (fun i => npIsClose (efficiencies i) 1 (1/1000000) (1/100000))
  let improvement_targets := (deaTargetIndices results).map (fun i =>
    let phi := (results i).phi.getD 0
    (dmu_names i,
      ⟨outputs i, fun r => outputs i r * phi,
        fun r => outputs i r * phi - outputs i r, (phi - 1) * 100⟩))
  ⟨efficiencies, results, frontier_dmus, frontier_dmus.map dmu_names,
    ranking, ranking.map dmu_names, ranking.map efficiencies,
    improvement_targets⟩

/-! ### Claim C4 — frontier classification tolerance -/

/-- Degenerate one-DMU data used to refute C4 as stated. -/
def c4X : Fin 1 → Fin 1 → ℚ := fun _ _ => 1

/-- Oracle LP solution with phi = 200000/199999, i.e. efficiency
1/phi = 0.999995, which is 5e-6 — more than 1e-6 — away from 1. -/
def c4Solve : LinprogResult 1 := ⟨true, 200000/199999, fun _ => 1, "ok"⟩

/-- Counterexample for C4: the code classifies efficiency 0.999995 as
efficient (both in `dea_efficiency.is_efficient` and in the
`dea_efficiency_all` frontier list) although it is not within 1e-6 of 1.0,
because `np.isclose(e, 1.0, atol=1e-6)` keeps numpy's default relative
tolerance rtol=1e-5, giving an effective tolerance of 1.1e-5. -/
theorem dea_tolerance_counterexample :
    (dea_efficiency c4X c4X 0 c4Solve).efficiency = some (199999/200000)
    ∧ (dea_efficiency c4X c4X 0 c4Solve).is_efficient = some true
    ∧ ¬ (|(199999 : ℚ)/200000 - 1| ≤ 1/1000000)
    ∧ (0 : Fin 1) ∈ (dea_efficiency_all c4X c4X (fun _ => "Plan")
        (fun _ => c4Solve)).frontier_dmus := by
  have hs : c4Solve.success = true := rfl
  have heff : (dea_efficiency c4X c4X 0 c4Solve).efficiency
      = some (199999/200000) := by
    simp only [dea_efficiency, hs, if_true]
    norm_num [c4Solve]
  refine ⟨heff, ?_, ?_, ?_⟩
  · simp only [dea_efficiency, hs, if_true, npIsClose, Option.some.injEq,
      decide_eq_true_eq]
    rw [abs_le]
    constructor <;> norm_num [c4Solve]
  · intro h
    rw [abs_le] at h
    have h1 := h.1
    norm_num at h1
  · simp only [dea_efficiency_all, List.mem_filter]
    refine ⟨List.mem_finRange 0, ?_⟩
    rw [heff]
    simp only [Option.getD_some, npIsClose, decide_eq_true_eq]
    rw [abs_le]
    constructor <;> norm_num

/-- C4 (amended): `dea_efficiency` (is_efficient) and `dea_efficiency_all`
(frontier_dmus) classify a DMU as on the efficient frontier exactly when its
efficiency score is within 1e-6 + 1e-5 = 1.1e-5 of 1.0 — the tolerance of
`np.isclose(e, 1.0, atol=1e-6)` with numpy's default rtol=1e-5 — not within
1e-6. -/
theorem dea_frontier_tolerance {nd ni no : ℕ} (inputs : Fin nd → Fin ni → ℚ)
    (outputs : Fin nd → Fin no → ℚ) (k : Fin nd) (solve : LinprogResult nd)
    (h : solve.success = true) (dmu_names : Fin nd → String)
    (solveAll : Fin nd → LinprogResult nd) (i : Fin nd) :
    (dea_efficiency inputs outputs k solve).is_efficient
      = some (decide (|1 / solve.x0 - 1| ≤ 11/1000000))
    ∧ (i ∈ (dea_efficiency_all inputs outputs dmu_names solveAll).frontier_dmus
        ↔ |(dea_efficiency_all inputs outputs dmu_names solveAll).efficiencies i
            - 1| ≤ 11/1000000) := by
  have key : ∀ a : ℚ, npIsClose a 1 (1/1000000) (1/100000)
      = decide (|a - 1| ≤ 11/1000000) := by
    intro a
    unfold npIsClose
    apply decide_eq_decide.mpr
    norm_num
  constructor
  · simp only [dea_efficiency, h, if_true]
    rw [key]
  · simp only [dea_efficiency_all, List.mem_filter]
    rw [key]
    simp only [decide_eq_true_eq, List.mem_finRange, true_and]

/-- Witness for the amended C4 at the one-DMU instance of the
counterexample: the classification agrees with the 1.1e-5 criterion. -/
theorem dea_frontier_tolerance_witness :
    c4Solve.success = true
    ∧ (dea_efficiency c4X c4X 0 c4Solve).is_efficient
        = some (decide (|1 / c4Solve.x0 - 1| ≤ 11/1000000))
    ∧ ((0 : Fin 1) ∈ (dea_efficiency_all c4X c4X (fun _ => "Plan")
          (fun _ => c4Solve)).frontier_dmus
        ↔ |(dea_efficiency_all c4X c4X (fun _ => "Plan")
            (fun _ => c4Solve)).efficiencies 0 - 1| ≤ 11/1000000) :=
  ⟨rfl,
    (dea_frontier_tolerance c4X c4X 0 c4Solve rfl (fun _ => "Plan")
      (fun _ => c4Solve) 0).1,
    (dea_frontier_tolerance c4X c4X 0 c4Solve rfl (fun _ => "Plan")
      (fun _ => c4Solve) 0).2⟩

/-! ### Claim C5 — LP failure handling -/

/-- C5: if the LP solver fails for a DMU, `dea_efficiency` returns a
structured result with all-None numeric fields and a failure status string
instead of raising, and `dea_efficiency_all` completes over all DMUs,
substituting efficiency 0 for the failed DMU in the efficiencies vector,
keeping it in the ranking, and excluding it from frontier_dmus and from the
improvement-target loop (whose contributing indices are `deaTargetIndices`,
mapped to name-keyed entries). -/
theorem dea_failure_handling {nd ni no : ℕ} (inputs : Fin nd → Fin ni → ℚ)
    (outputs : Fin nd → Fin no → ℚ) (k : Fin nd) (solve : LinprogResult nd)
    (h : solve.success = false) (dmu_names : Fin nd → String)
    (solveAll : Fin nd → LinprogResult nd)
    (h2 : (solveAll k).success = false) :
    ((dea_efficiency inputs outputs k solve : DEAResult nd ni no).efficiency = none
      ∧ (dea_efficiency inputs outputs k solve : DEAResult nd ni no).phi = none
      ∧ (dea_efficiency inputs outputs k solve : DEAResult nd ni no).lambdas = none
      ∧ (dea_efficiency inputs outputs k solve).slack_inputs = none
      ∧ (dea_efficiency inputs outputs k solve).slack_outputs = none
      ∧ (dea_efficiency inputs outputs k solve : DEAResult nd ni no).is_efficient = none
      ∧ (dea_efficiency inputs outputs k solve : DEAResult nd ni no).status
          = "failed: " ++ solve.message)
    ∧ (dea_efficiency_all inputs outputs dmu_names solveAll).efficiencies k = 0
    ∧ k ∈ (dea_efficiency_all inputs outputs dmu_names solveAll).ranking
    ∧ k ∉ (dea_efficiency_all inputs outputs dmu_names solveAll).frontier_dmus
    ∧ k ∉ deaTargetIndices (fun i => dea_efficiency inputs outputs i (solveAll i))
    ∧ (dea_efficiency_all inputs outputs dmu_names solveAll).improvement_targets.map
        Prod.fst
      = (deaTargetIndices (fun i => dea_efficiency inputs outputs i
          (solveAll i))).map dmu_names := by
  have hfail : ∀ (sv : LinprogResult nd), sv.success = false →
      (dea_efficiency inputs outputs k sv : DEAResult nd ni no)
        = ⟨none, none, none, none, none, none, none, "failed: " ++ sv.message⟩ := by
    intro sv hsv
    simp only [dea_efficiency, hsv, Bool.false_eq_true, if_false]
  have hfailk : (dea_efficiency inputs outputs k (solveAll k) : DEAResult nd ni no)
      = ⟨none, none, none, none, none, none, none,
          "failed: " ++ (solveAll k).message⟩ := hfail (solveAll k) h2
  have heffk : ((dea_efficiency inputs outputs k (solveAll k)
      : DEAResult nd ni no).efficiency : Option ℚ) = none := by rw [hfailk]
  refine ⟨?_, ?_, ?_, ?_, ?_, ?_⟩
  · rw [hfail solve h]
    exact ⟨rfl, rfl, rfl, rfl, rfl, rfl, rfl⟩
  · simp only [dea_efficiency_all]
    rw [heffk]
    rfl
  · simp only [dea_efficiency_all, argsortDescQ]
    exact (List.mergeSort_perm _ _).mem_iff.mpr (List.mem_finRange k)
  · simp only [dea_efficiency_all, List.mem_filter]
    rintro ⟨-, hcl⟩
    rw [heffk] at hcl
    simp only [Option.getD_none, npIsClose, decide_eq_true_eq] at hcl
    rw [abs_le] at hcl
    have h1 := hcl.1
    norm_num at h1
  · unfold deaTargetIndices
    rw [List.mem_filter]
    rintro ⟨-, hcl⟩
    have hcl2 : deaCond (dea_efficiency inputs outputs k (solveAll k)
        : DEAResult nd ni no) = true := hcl
    rw [hfailk] at hcl2
    unfold deaCond at hcl2
    simp at hcl2
  · simp only [dea_efficiency_all, List.map_map]
    rfl

/-- Two-DMU concrete data for the C5 witness. -/
def c5X : Fin 2 → Fin 1 → ℚ := fun _ _ => 1

/-- Oracle in which the LP fails for DMU 0 and succeeds for DMU 1. -/
def c5SolveAll : Fin 2 → LinprogResult 2 := fun i =>
  if i = 0 then ⟨false, 0, fun _ => 0, "infeasible"⟩
  else ⟨true, 1, fun _ => 1, "ok"⟩

/-- Witness for C5: with the LP failing on DMU 0, the per-DMU result is the
structured failure and the sweep substitutes 0, keeps DMU 0 in the ranking
and drops it from frontier and improvement targets. -/
theorem dea_failure_handling_witness :
    (c5SolveAll 0).success = false
    ∧ (dea_efficiency c5X c5X 0 (c5SolveAll 0) : DEAResult 2 1 1).efficiency = none
    ∧ (dea_efficiency c5X c5X 0 (c5SolveAll 0) : DEAResult 2 1 1).status
        = "failed: " ++ (c5SolveAll 0).message
    ∧ (dea_efficiency_all c5X c5X (fun _ => "Plan") c5SolveAll).efficiencies 0 = 0
    ∧ (0 : Fin 2) ∈ (dea_efficiency_all c5X c5X (fun _ => "Plan") c5SolveAll).ranking
    ∧ (0 : Fin 2) ∉ (dea_efficiency_all c5X c5X (fun _ => "Plan")
        c5SolveAll).frontier_dmus
    ∧ (0 : Fin 2) ∉ deaTargetIndices
        (fun i => dea_efficiency c5X c5X i (c5SolveAll i)) := by
  have h : (c5SolveAll 0).success = false := rfl
  exact ⟨h,
    ((dea_failure_handling c5X c5X 0 (c5SolveAll 0) h (fun _ => "Plan")
      c5SolveAll h).1).1,
    ((dea_failure_handling c5X c5X 0 (c5SolveAll 0) h (fun _ => "Plan")
      c5SolveAll h).1).2.2.2.2.2.2,
    (dea_failure_handling c5X c5X 0 (c5SolveAll 0) h (fun _ => "Plan")
      c5SolveAll h).2.1,
    (dea_failure_handling c5X c5X 0 (c5SolveAll 0) h (fun _ => "Plan")
      c5SolveAll h).2.2.1,
    (dea_failure_handling c5X c5X 0 (c5SolveAll 0) h (fun _ => "Plan")
      c5SolveAll h).2.2.2.1,
    (dea_failure_handling c5X c5X 0 (c5SolveAll 0) h (fun _ => "Plan")
      c5SolveAll h).2.2.2.2.1⟩

/-! ### TOPSIS -/

/-- The per-column Euclidean norms of `normalize_matrix` (line 215):
`np.sqrt(np.sum(decision_matrix ** 2, axis=0))`.  Square roots force the
model into ℝ. -/
noncomputable def colNorms {m n : ℕ} (M : Fin m → Fin n → ℝ) (j : Fin n) : ℝ :=
  Real.sqrt (∑ i, (M i j) ^ 2)

/-- The zero-guard of `normalize_matrix` (line 218):
`np.where(col_norms == 0, 1, col_norms)`. -/
noncomputable def safeColNorms {m n : ℕ} (M : Fin m → Fin n → ℝ) (j : Fin n) : ℝ :=
  if colNorms M j = 0 then 1 else colNorms M j

/-- Embeds `normalize_matrix` (lines 202-220): vector normalization, each
entry divided by its column's (guarded) Euclidean norm. -/
noncomputable def normalize_matrix {m n : ℕ} (M : Fin m → Fin n → ℝ) :
    Fin m → Fin n → ℝ :=
  fun i j => M i j / safeColNorms M j

/-- Embeds `weighted_matrix` (lines 223-234): column-wise multiplication by
the weight vector. -/
def weighted_matrix {m n : ℕ} (M : Fin m → Fin n → ℝ) (w : Fin n → ℝ) :
    Fin m → Fin n → ℝ :=
  fun i j => M i j * w j

/-- Embeds `ideal_solutions` (lines 237-266): per column, a tag whose
lower-cased form equals exactly \"benefit\" selects (max, min) for
(ideal, negative-ideal); any other tag falls to the else branch and selects
(min, max).  `np.max`/`np.min` require a nonempty axis, hence `[NeZero m]`. -/
noncomputable def ideal_solutions {m n : ℕ} [NeZero m] (W : Fin m → Fin n → ℝ)
    (criteria_types : Fin n → String) : (Fin n → ℝ) × (Fin n → ℝ) :=
  (fun j => if (criteria_types j).toLower = "benefit"
      then Finset.univ.sup' Finset.univ_nonempty (fun i => W i j)
      else Finset.univ.inf' Finset.univ_nonempty (fun i => W i j),
    fun j => if (criteria_types j).toLower = "benefit"
      then Finset.univ.inf' Finset.univ_nonempty (fun i => W i j)
      else Finset.univ.sup' Finset.univ_nonempty (fun i => W i j))

/-- Embeds `separation_measures` (lines 269-293): per alternative, Euclidean
distance to the ideal and to the negative-ideal vector. -/
noncomputable def separation_measures {m n : ℕ} (W : Fin m → Fin n → ℝ)
    (ideal negative_ideal : Fin n → ℝ) : (Fin m → ℝ) × (Fin m → ℝ) :=
  (fun i => Real.sqrt (∑ j, (W i j - ideal j) ^ 2),
    fun i => Real.sqrt (∑ j, (W i j - negative_ideal j) ^ 2))

/-- The zero-guard of `closeness_scores` (lines 309-311):
`np.where(denominator == 0, 1, denominator)`. -/
noncomputable def closenessDenom {m : ℕ} (s_plus s_minus : Fin m → ℝ)
    (i : Fin m) : ℝ :=
  if s_plus i + s_minus i = 0 then 1 else s_plus i + s_minus i

/-- Embeds `closeness_scores` (lines 296-313): C = S- / (S+ + S-) with the
zero denominator replaced by 1. -/
noncomputable def closeness_scores {m : ℕ} (s_plus s_minus : Fin m → ℝ) :
    Fin m → ℝ :=
  fun i => s_minus i / closenessDenom s_plus s_minus i

/-- The weight renormalization of `topsis_rank` (lines 346-348):
`if not np.isclose(weights.sum(), 1.0): weights = weights / weights.sum()`,
with numpy defaults rtol=1e-5, atol=1e-8 in the isclose test. -/
noncomputable def topsisWeights {n : ℕ} (weights : Fin n → ℝ) : Fin n → ℝ :=
  if |(∑ j, weights j) - 1| ≤ 1/100000000 + 1/100000 * |(1 : ℝ)| then weights
  else fun j => weights j / ∑ j2, weights j2

/-- The dict returned by `topsis_rank`. -/
structure TopsisResult (m n : ℕ) where
  normalized_matrix : Fin m → Fin n → ℝ
  weighted_matrix : Fin m → Fin n → ℝ
  ideal : Fin n → ℝ
  negative_ideal : Fin n → ℝ
  s_plus : Fin m → ℝ
  s_minus : Fin m → ℝ
  closeness : Fin m → ℝ
  ranking : List (Fin m)
  ranked_alternatives : List String
  ranked_scores : List ℝ

/-- Embeds `topsis_rank` (lines 316-383): renormalize weights if needed,
then normalize, weight, take ideal solutions, separations, closeness, and
rank by descending closeness.  The `np.argsort(-c_scores)` call of line 366
is an external library call and is modelled by the oracle `argsort` (like
eig and linprog); numpy's documented contract for its result is
`ValidArgsortDesc` below.  `alternative_names` is always supplied here; the
source merely generates default names when given None. -/
noncomputable def topsis_rank {m n : ℕ} [NeZero m]
    (decision_matrix : Fin m → Fin n → ℝ) (weights : Fin n → ℝ)
    (criteria_types : Fin n → String) (alternative_names : Fin m → String)
    (argsort : (Fin m → ℝ) → List (Fin m)) : TopsisResult m n :=
  let w := topsisWeights weights
  let norm_matrix := normalize_matrix decision_matrix
  let w_matrix := weighted_matrix norm_matrix w
  let ideals := ideal_solutions w_matrix criteria_types
  let seps := separation_measures w_matrix ideals.1 ideals.2
  let c_scores := closeness_scores seps.1 seps.2
  let ranking := argsort c_scores
  ⟨norm_matrix, w_matrix, ideals.1, ideals.2, seps.1, seps.2, c_scores,
    ranking, ranking.map alternative_names, ranking.map c_scores⟩

/-! ### Claim C3 — ranking order -/

/-- Numpy's documented contract for `np.argsort(-c)` with any sort kind: the
returned index list is a permutation of all indices arranging the scores in
weakly descending order.  Nothing more is documented: the default kind
(quicksort/introsort) is explicitly not stable, so the relative order of
exactly tied scores is unspecified. -/
def ValidArgsortDesc {m : ℕ} (c : Fin m → ℝ) (p : List (Fin m)) : Prop :=
  p.Perm (List.finRange m) ∧ p.Pairwise (fun a b => c b ≤ c a)

/-- Comparison of one admissible argsort implementation (larger score first,
ties by smaller index), used only to witness the oracle hypotheses. -/
noncomputable def argsortLe {m : ℕ} (c : Fin m → ℝ) (a b : Fin m) : Bool :=
  decide (c b < c a ∨ (c a = c b ∧ a.val ≤ b.val))

/-- One concrete sort satisfying the argsort contract, used to witness the
oracle hypotheses of the TOPSIS theorems; it is one admissible
implementation of `ValidArgsortDesc`, not a model of numpy's default kind. -/
noncomputable def stableArgsortDesc {m : ℕ} (c : Fin m → ℝ) : List (Fin m) :=
  (List.finRange m).mergeSort (argsortLe c)

theorem stableArgsortDesc_sorted {m : ℕ} (c : Fin m → ℝ) :
    (stableArgsortDesc c).Perm (List.finRange m)
    ∧ (stableArgsortDesc c).Pairwise
        (fun a b => c b < c a ∨ (c a = c b ∧ a.val < b.val)) := by
  have hperm : (stableArgsortDesc c).Perm (List.finRange m) :=
    List.mergeSort_perm _ _
  refine ⟨hperm, ?_⟩
  have htrans : ∀ a b d : Fin m, argsortLe c a b → argsortLe c b d →
      argsortLe c a d := by
    intro a b d hab hbd
    simp only [argsortLe, decide_eq_true_eq] at hab hbd ⊢
    rcases hab with h1 | ⟨h1, h1v⟩
    · rcases hbd with h2 | ⟨h2, _⟩
      · exact Or.inl (lt_trans h2 h1)
      · exact Or.inl (h2 ▸ h1)
    · rcases hbd with h2 | ⟨h2, h2v⟩
      · exact Or.inl (h1 ▸ h2)
      · exact Or.inr ⟨h1.trans h2, le_trans h1v h2v⟩
  have htotal : ∀ a b : Fin m, argsortLe c a b || argsortLe c b a := by
    intro a b
    simp only [argsortLe, Bool.or_eq_true, decide_eq_true_eq]
    rcases lt_trichotomy (c a) (c b) with h1 | h1 | h1
    · exact Or.inr (Or.inl h1)
    · rcases Nat.le_total a.val b.val with h2 | h2
      · exact Or.inl (Or.inr ⟨h1, h2⟩)
      · exact Or.inr (Or.inr ⟨h1.symm, h2⟩)
    · exact Or.inl (Or.inl h1)
  have hsorted : (stableArgsortDesc c).Pairwise
      (fun a b => (c b < c a ∨ (c a = c b ∧ a.val ≤ b.val))) := by
    have h : (stableArgsortDesc c).Pairwise
        (fun a b => argsortLe c a b = true) :=
      List.sorted_mergeSort htrans htotal (List.finRange m)
    exact h.imp (fun hab => by
      simpa only [argsortLe, decide_eq_true_eq] using hab)
  have hnodup : (stableArgsortDesc c).Nodup :=
    hperm.nodup_iff.mpr (List.nodup_finRange m)
  exact (hsorted.and hnodup).imp (fun hab => by
    rcases hab with ⟨h1 | ⟨h1, h1v⟩, hne⟩
    · exact Or.inl h1
    · exact Or.inr ⟨h1, lt_of_le_of_ne h1v (fun hv => hne (Fin.ext hv))⟩)

theorem stableArgsortDesc_valid {m : ℕ} (c : Fin m → ℝ) :
    ValidArgsortDesc c (stableArgsortDesc c) := by
  refine ⟨(stableArgsortDesc_sorted c).1, (stableArgsortDesc_sorted c).2.imp ?_⟩
  intro a b hab
  rcases hab with h1 | ⟨h1, _⟩
  · exact le_of_lt h1
  · exact le_of_eq h1.symm

/-- Identical-rows decision matrix producing exactly tied closeness scores. -/
noncomputable def c3M : Fin 2 → Fin 1 → ℝ := fun _ _ => 1

/-- An argsort result that returns the tied indices in reverse order:
admissible for numpy's unstable default sort kind. -/
def c3p : (Fin 2 → ℝ) → List (Fin 2) := fun _ => [1, 0]

/-- The TOPSIS run of the C3 counterexample: two identical alternatives, one
criterion, with the reversed-tie argsort result. -/
noncomputable def c3R : TopsisResult 2 1 :=
  topsis_rank c3M (fun _ => 1) (fun _ => "benefit") (fun _ => "Plan") c3p

/-- Counterexample for C3 as stated: both alternatives have exactly equal
closeness scores and the argsort result satisfies everything numpy documents
for `np.argsort`, yet the ranking places index 1 before index 0.  The
smaller original index is therefore not guaranteed to appear first: the
source calls `np.argsort` with its default kind, which is not stable, so
the tie-break claimed as a stable-sort guarantee is not a property of the
program. -/
theorem topsis_tie_order_counterexample :
    c3R.closeness 0 = c3R.closeness 1
    ∧ ValidArgsortDesc c3R.closeness c3R.ranking
    ∧ c3R.ranking = [1, 0]
    ∧ c3R.ranking ≠ [0, 1] := by
  have tie : c3R.closeness 0 = c3R.closeness 1 := rfl
  have hrank : c3R.ranking = [1, 0] := rfl
  refine ⟨tie, ⟨?_, ?_⟩, hrank, ?_⟩
  · rw [hrank, show List.finRange 2 = [0, 1] from rfl]
    exact List.Perm.swap 0 1 []
  · rw [hrank]
    constructor
    · intro b hb
      rw [List.mem_singleton.mp hb]
      exact le_of_eq tie
    · constructor
      · intro b hb
        exact absurd hb (List.not_mem_nil b)
      · exact List.Pairwise.nil
  · rw [hrank]
    decide

/-- C3 (amended): `topsis_rank` produces its ranking by passing the negated
closeness scores to the external `np.argsort` (line 366), modelled as an
oracle.  For every argsort result meeting numpy's documented contract
(`ValidArgsortDesc`), the ranking is a permutation of all alternative
indices in descending order of closeness score, exactly tied scores being
adjacent; the relative order of exactly tied scores is unspecified, since
the default sort kind is not stable (see
`topsis_tie_order_counterexample`). -/
theorem topsis_rank_ordering (m n : ℕ) (decision_matrix : Fin (m+1) → Fin n → ℝ)
    (weights : Fin n → ℝ) (criteria_types : Fin n → String)
    (alternative_names : Fin (m+1) → String)
    (argsort : (Fin (m+1) → ℝ) → List (Fin (m+1)))
    (h : ValidArgsortDesc
      (topsis_rank decision_matrix weights criteria_types alternative_names
        argsort).closeness
      (argsort (topsis_rank decision_matrix weights criteria_types
        alternative_names argsort).closeness)) :
    (topsis_rank decision_matrix weights criteria_types alternative_names
        argsort).ranking.Perm (List.finRange (m+1))
    ∧ (topsis_rank decision_matrix weights criteria_types alternative_names
        argsort).ranking.Pairwise (fun a b =>
      (topsis_rank decision_matrix weights criteria_types alternative_names
          argsort).closeness b
        < (topsis_rank decision_matrix weights criteria_types alternative_names
            argsort).closeness a
      ∨ (topsis_rank decision_matrix weights criteria_types alternative_names
            argsort).closeness a
          = (topsis_rank decision_matrix weights criteria_types alternative_names
              argsort).closeness b) := by
  simp only [topsis_rank] at h ⊢
  exact ⟨h.1, h.2.imp (fun hab =>
    (lt_or_eq_of_le hab).imp (fun x => x) Eq.symm)⟩

/-- Witness for the amended C3: the oracle hypothesis is discharged with the
concrete contract-compliant sort `stableArgsortDesc`. -/
theorem topsis_rank_ordering_witness :
    ValidArgsortDesc
      (topsis_rank c3M (fun _ => 1) (fun _ => "benefit") (fun _ => "Plan")
        stableArgsortDesc).closeness
      (stableArgsortDesc (topsis_rank c3M (fun _ => 1) (fun _ => "benefit")
        (fun _ => "Plan") stableArgsortDesc).closeness)
    ∧ (topsis_rank c3M (fun _ => 1) (fun _ => "benefit") (fun _ => "Plan")
        stableArgsortDesc).ranking.Perm (List.finRange 2)
    ∧ (topsis_rank c3M (fun _ => 1) (fun _ => "benefit") (fun _ => "Plan")
        stableArgsortDesc).ranking.Pairwise (fun a b =>
      (topsis_rank c3M (fun _ => 1) (fun _ => "benefit") (fun _ => "Plan")
          stableArgsortDesc).closeness b
        < (topsis_rank c3M (fun _ => 1) (fun _ => "benefit") (fun _ => "Plan")
            stableArgsortDesc).closeness a
      ∨ (topsis_rank c3M (fun _ => 1) (fun _ => "benefit") (fun _ => "Plan")
            stableArgsortDesc).closeness a
          = (topsis_rank c3M (fun _ => 1) (fun _ => "benefit") (fun _ => "Plan")
              stableArgsortDesc).closeness b) := by
  have h := stableArgsortDesc_valid
    ((topsis_rank c3M (fun _ => 1) (fun _ => "benefit") (fun _ => "Plan")
      stableArgsortDesc).closeness)
  exact ⟨h,
    (topsis_rank_ordering 1 1 c3M (fun _ => 1) (fun _ => "benefit")
      (fun _ => "Plan") stableArgsortDesc h).1,
    (topsis_rank_ordering 1 1 c3M (fun _ => 1) (fun _ => "benefit")
      (fun _ => "Plan") stableArgsortDesc h).2⟩

/-! ### Claim C7 — degenerate-input guards -/

theorem colNorms_eq_zero_entries {m n : ℕ} (M : Fin m → Fin n → ℝ) (j : Fin n)
    (h : colNorms M j = 0) : ∀ i, M i j = 0 := by
  intro i
  have hnn : 0 ≤ ∑ i2, (M i2 j) ^ 2 :=
    Finset.sum_nonneg fun _ _ => sq_nonneg _
  have hsum : (∑ i2, (M i2 j) ^ 2) = 0 := (Real.sqrt_eq_zero hnn).mp h
  have hterm := (Finset.sum_eq_zero_iff_of_nonneg
    (fun i2 _ => sq_nonneg (M i2 j))).mp hsum i (Finset.mem_univ i)
  exact sq_eq_zero_iff.mp hterm

/-- C7: a decision-matrix column of Euclidean norm 0 is normalized with a
substituted divisor of 1, so the normalized column remains all zeros, and an
alternative whose closeness denominator S+ + S- equals 0 has the denominator
substituted by 1 (closeness = S- / 1 = S-); both guards are total functions,
no error is raised. -/
theorem topsis_degenerate_guards (m n : ℕ) (M : Fin m → Fin n → ℝ) (j : Fin n)
    (h : colNorms M j = 0) (s_plus s_minus : Fin m → ℝ) (i : Fin m)
    (h2 : s_plus i + s_minus i = 0) :
    safeColNorms M j = 1
    ∧ (∀ i2, normalize_matrix M i2 j = 0)
    ∧ closenessDenom s_plus s_minus i = 1
    ∧ closeness_scores s_plus s_minus i = s_minus i := by
  have hsafe : safeColNorms M j = 1 := by
    unfold safeColNorms
    rw [if_pos h]
  have hdenom : closenessDenom s_plus s_minus i = 1 := by
    unfold closenessDenom
    rw [if_pos h2]
  refine ⟨hsafe, ?_, hdenom, ?_⟩
  · intro i2
    unfold normalize_matrix
    rw [colNorms_eq_zero_entries M j h i2, zero_div]
  · unfold closeness_scores
    rw [hdenom, div_one]

/-- All-zero decision column used for the C7 witness. -/
noncomputable def c7M : Fin 1 → Fin 1 → ℝ := fun _ _ => 0

/-- Zero separation vector used for the C7 witness. -/
noncomputable def c7s : Fin 1 → ℝ := fun _ => 0

/-- Witness for C7 at the all-zero 1x1 matrix and zero separations. -/
theorem topsis_degenerate_guards_witness :
    colNorms c7M 0 = 0
    ∧ c7s 0 + c7s 0 = 0
    ∧ safeColNorms c7M 0 = 1
    ∧ normalize_matrix c7M 0 0 = 0
    ∧ closenessDenom c7s c7s 0 = 1
    ∧ closeness_scores c7s c7s 0 = c7s 0 := by
  have h : colNorms c7M 0 = 0 := by
    unfold colNorms
    rw [Fin.sum_univ_one]
    norm_num [c7M, Real.sqrt_zero]
  have h2 : c7s 0 + c7s 0 = 0 := by norm_num [c7s]
  exact ⟨h, h2, (topsis_degenerate_guards 1 1 c7M 0 h c7s c7s 0 h2).1,
    (topsis_degenerate_guards 1 1 c7M 0 h c7s c7s 0 h2).2.1 0,
    (topsis_degenerate_guards 1 1 c7M 0 h c7s c7s 0 h2).2.2.1,
    (topsis_degenerate_guards 1 1 c7M 0 h c7s c7s 0 h2).2.2.2⟩

/-! ### Claim C8 — scale invariance of normalization -/

/-- Rescaling of a single column by a constant, the operation C8 quantifies
over. -/
noncomputable def scaleColumn {m n : ℕ} (M : Fin m → Fin n → ℝ) (j0 : Fin n)
    (k : ℝ) : Fin m → Fin n → ℝ :=
  fun i j => if j = j0 then k * M i j else M i j

theorem scaleColumn_apply {m n : ℕ} (M : Fin m → Fin n → ℝ) (j0 : Fin n)
    (k : ℝ) (i : Fin m) (j : Fin n) :
    scaleColumn M j0 k i j = if j = j0 then k * M i j else M i j := rfl

theorem colNorms_scaleColumn_self {m n : ℕ} (M : Fin m → Fin n → ℝ)
    (j0 : Fin n) (k : ℝ) (hk : 0 ≤ k) :
    colNorms (scaleColumn M j0 k) j0 = k * colNorms M j0 := by
  unfold colNorms
  have e1 : ∀ i : Fin m, (scaleColumn M j0 k i j0) ^ 2 = k ^ 2 * (M i j0) ^ 2 := by
    intro i
    rw [scaleColumn_apply, if_pos rfl, mul_pow]
  rw [Finset.sum_congr rfl (fun i _ => e1 i), ← Finset.mul_sum,
    Real.sqrt_mul (sq_nonneg k), Real.sqrt_sq hk]

theorem colNorms_scaleColumn_other {m n : ℕ} (M : Fin m → Fin n → ℝ)
    (j0 j : Fin n) (k : ℝ) (hj : j ≠ j0) :
    colNorms (scaleColumn M j0 k) j = colNorms M j := by
  unfold colNorms
  congr 1
  apply Finset.sum_congr rfl
  intro i _
  rw [scaleColumn_apply, if_neg hj]

/-- C8: `normalize_matrix` is scale-invariant per column: multiplying any
single column by a strictly positive constant k and then normalizing yields
the same normalized matrix as normalizing the original matrix. -/
theorem normalize_scale_invariant (m n : ℕ) (M : Fin m → Fin n → ℝ)
    (j0 : Fin n) (k : ℝ) (hk : 0 < k) :
    normalize_matrix (scaleColumn M j0 k) = normalize_matrix M := by
  funext i j
  unfold normalize_matrix
  by_cases hj : j = j0
  · subst hj
    rw [scaleColumn_apply, if_pos rfl]
    unfold safeColNorms
    rw [colNorms_scaleColumn_self M j k hk.le]
    by_cases hz : colNorms M j = 0
    · rw [hz, mul_zero, if_pos rfl, colNorms_eq_zero_entries M j hz i,
        mul_zero]
    · have hkz : k * colNorms M j ≠ 0 := mul_ne_zero hk.ne' hz
      rw [if_neg hkz, if_neg hz, mul_div_mul_left (M i j) (colNorms M j) hk.ne']
  · rw [scaleColumn_apply, if_neg hj]
    unfold safeColNorms
    rw [colNorms_scaleColumn_other M j0 j k hj]

/-- All-ones decision matrix used for the C8 witness. -/
noncomputable def c8M : Fin 1 → Fin 1 → ℝ := fun _ _ => 1

/-- Witness for C8: rescaling the only column of a 1x1 matrix by k = 2. -/
theorem normalize_scale_invariant_witness :
    (0 : ℝ) < 2
    ∧ normalize_matrix (scaleColumn c8M 0 2) = normalize_matrix c8M :=
  ⟨by norm_num, normalize_scale_invariant 1 1 c8M 0 2 (by norm_num)⟩

/-! ### Claim C10 — unrecognized criteria tags fall back to cost -/

/-- C10: in `ideal_solutions` (and hence in `topsis_rank`), any criteria tag
whose lower-cased form is not exactly \"benefit\" is silently treated as
cost: the ideal entry is the column minimum and the negative-ideal entry the
column maximum.  The functions are total — no tag is ever rejected. -/
theorem ideal_solutions_cost_fallback (m n : ℕ) (W : Fin (m+1) → Fin n → ℝ)
    (criteria_types : Fin n → String) (j : Fin n)
    (h : (criteria_types j).toLower ≠ "benefit")
    (decision_matrix : Fin (m+1) → Fin n → ℝ) (weights : Fin n → ℝ)
    (alternative_names : Fin (m+1) → String)
    (argsort : (Fin (m+1) → ℝ) → List (Fin (m+1))) :
    (ideal_solutions W criteria_types).1 j
      = Finset.univ.inf' Finset.univ_nonempty (fun i => W i j)
    ∧ (ideal_solutions W criteria_types).2 j
      = Finset.univ.sup' Finset.univ_nonempty (fun i => W i j)
    ∧ (topsis_rank decision_matrix weights criteria_types
        alternative_names argsort).ideal j
      = Finset.univ.inf' Finset.univ_nonempty (fun i =>
          (topsis_rank decision_matrix weights criteria_types
            alternative_names argsort).weighted_matrix i j)
    ∧ (topsis_rank decision_matrix weights criteria_types
        alternative_names argsort).negative_ideal j
      = Finset.univ.sup' Finset.univ_nonempty (fun i =>
          (topsis_rank decision_matrix weights criteria_types
            alternative_names argsort).weighted_matrix i j) := by
  have base : ∀ W2 : Fin (m+1) → Fin n → ℝ,
      (ideal_solutions W2 criteria_types).1 j
        = Finset.univ.inf' Finset.univ_nonempty (fun i => W2 i j)
      ∧ (ideal_solutions W2 criteria_types).2 j
        = Finset.univ.sup' Finset.univ_nonempty (fun i => W2 i j) := by
    intro W2
    simp only [ideal_solutions]
    rw [if_neg h, if_neg h]
    exact ⟨rfl, rfl⟩
  refine ⟨(base W).1, (base W).2, ?_, ?_⟩
  · simp only [topsis_rank]
    exact (base _).1
  · simp only [topsis_rank]
    exact (base _).2

/-- Weighted matrix used for the C10 witness. -/
noncomputable def c10W : Fin 2 → Fin 1 → ℝ := fun i _ => if i = 0 then 3 else 1

/-- Tag list whose only entry is not recognized as benefit after lowering. -/
def c10T : Fin 1 → String := fun _ => "Price"

/-- Witness for C10 at the tag \"Price\" (lower-cases to \"price\"). -/
theorem ideal_solutions_cost_fallback_witness :
    ((c10T 0).toLower ≠ "benefit")
    ∧ (ideal_solutions c10W c10T).1 0
        = Finset.univ.inf' Finset.univ_nonempty (fun i => c10W i 0)
    ∧ (ideal_solutions c10W c10T).2 0
        = Finset.univ.sup' Finset.univ_nonempty (fun i => c10W i 0)
    ∧ (topsis_rank c10W (fun _ => 1) c10T (fun _ => "Plan")
          stableArgsortDesc).ideal 0
        = Finset.univ.inf' Finset.univ_nonempty (fun i =>
            (topsis_rank c10W (fun _ => 1) c10T (fun _ => "Plan")
              stableArgsortDesc).weighted_matrix i 0) := by
  have h : (c10T 0).toLower ≠ "benefit" := by
    rw [c10T, String.toLower, String.map_eq]
    decide
  exact ⟨h,
    (ideal_solutions_cost_fallback 1 1 c10W c10T 0 h c10W (fun _ => 1)
      (fun _ => "Plan") stableArgsortDesc).1,
    (ideal_solutions_cost_fallback 1 1 c10W c10T 0 h c10W (fun _ => 1)
      (fun _ => "Plan") stableArgsortDesc).2.1,
    (ideal_solutions_cost_fallback 1 1 c10W c10T 0 h c10W (fun _ => 1)
      (fun _ => "Plan") stableArgsortDesc).2.2.1⟩

end SESP
